import Mathlib

/-!
# Verification of the abkve in-memory vector store

This development embeds the core of `src/src/lib.rs` (the `Abkve` /
`AbkveInner` vector store: normalized insertion, threshold search, the
parallel and naive search variants, and the bincode snapshot codec) and
proves the specification claims about it.

Modelling conventions:

* `f32` values are idealized as real numbers (`ℝ`); each floating-point
  operation of the source is modelled by the corresponding exact real
  operation, so rounding-tolerance clauses of the spec hold with drift 0.
* `usize` / `u64` values are modelled by `ℕ`.
* Rust panics (`assert!` failures) are modelled as preconditions
  (hypotheses) of the theorems, never as program values.
* The snapshot codec is modelled at the byte level over `ℕ`-valued bytes;
  an `f32` enters the codec only through its 32-bit pattern, modelled as a
  `ℕ < 2^32` (the codec never interprets the pattern numerically).
* The outer `Abkve` wrapper only adds an `RwLock` around `AbkveInner` and
  forwards every call, so the model works with `AbkveInner` directly.
-/

/-- `l2_norm` (lib.rs:317): `v.iter().map(|x| x * x).sum::<f32>().sqrt()`.
The source literal `1e-10` is written `1 / 10 ^ 10` throughout. -/
noncomputable def l2_norm (v : List ℝ) : ℝ :=
  Real.sqrt ((v.map (fun x => x * x)).sum)

/-- The inverse-norm factor shared by `add` (lib.rs:192) and
`normalize_vec` (lib.rs:326): `if norm > 1e-10 { 1.0 / norm } else { 1.0 }`. -/
noncomputable def inv_norm (v : List ℝ) : ℝ :=
  if l2_norm v > 1 / 10 ^ 10 then 1 / l2_norm v else 1

/-- `normalize_vec` (lib.rs:324): returns a new vector with every
component multiplied by the inverse-norm factor. -/
noncomputable def normalize_vec (v : List ℝ) : List ℝ :=
  v.map (fun x => x * inv_norm v)

/-- The iterator dot product used by `search_naive` (lib.rs:304):
`norm_query.iter().zip(row.iter()).map(|(a, b)| a * b).sum()`.
This is also the reference summation the spec compares against. -/
noncomputable def dot_list (a b : List ℝ) : ℝ :=
  ((a.zip b).map (fun p => p.1 * p.2)).sum

/-- `dot_product_unrolled` (lib.rs:359): eight independent accumulator
lanes, lane `j` summing `a[8·i+j] * b[8·i+j]` over the full 8-chunks, then
a horizontal reduction and a scalar remainder loop.  `get_unchecked`
accesses beyond the end of `b` (undefined behaviour in the source, which
its callers rule out) are modelled by `getD _ 0`. -/
noncomputable def dot_product_unrolled (a b : List ℝ) : ℝ :=
  let len := a.length
  let chunks := len / 8
  let lane : Nat → ℝ := fun j =>
    ∑ i ∈ Finset.range chunks, a.getD (i * 8 + j) 0 * b.getD (i * 8 + j) 0
  let result :=
    lane 0 + lane 1 + lane 2 + lane 3 + lane 4 + lane 5 + lane 6 + lane 7
  result + ∑ i ∈ Finset.Ico (chunks * 8) len, a.getD i 0 * b.getD i 0

/-- `AbkveInner` (lib.rs:152): flat SoA storage.  `data` is the
concatenation of all rows (`dim` floats per row), `ids` the parallel id
array.  Field order matches the Rust declaration (`dim`, `data`, `ids`);
the bincode codec serializes the fields in this order. -/
structure AbkveInner where
  dim : Nat
  data : List ℝ
  ids : List Nat

/-- `AbkveInner::new` (lib.rs:162).  The `capacity` argument only
pre-reserves backing memory and does not affect the abstract state; the
`assert!(dim > 0)` panic is modelled as a hypothesis where relevant. -/
def AbkveInner.new (dim capacity : Nat) : AbkveInner :=
  ⟨dim, [], []⟩

/-- `AbkveInner::len` (lib.rs:171): `self.ids.len()`. -/
def AbkveInner.len (s : AbkveInner) : Nat := s.ids.length

/-- `AbkveInner::add` (lib.rs:176): appends the inverse-norm-scaled copy
of `vector` to `data` and `id` to `ids`.  The
`assert_eq!(vector.len(), self.dim)` panic is modelled as a hypothesis. -/
noncomputable def AbkveInner.add (s : AbkveInner) (id : Nat) (vector : List ℝ) : AbkveInner :=
  { s with
      data := s.data ++ vector.map (fun x => x * inv_norm vector),
      ids := s.ids ++ [id] }

/-- A sequence of `add` calls, in order. -/
noncomputable def applyAdds (s : AbkveInner) (ops : List (Nat × List ℝ)) : AbkveInner :=
  ops.foldl (fun st op => st.add op.1 op.2) s

/-- Row `i` of the store: `&data[i*dim .. i*dim + dim]` (lib.rs:235).
Also the `i`-th element of `data.par_chunks(dim)` / `data.chunks_exact(dim)`
in the two search variants (a short final chunk is truncated by `take`). -/
def rowSlice (s : AbkveInner) (i : Nat) : List ℝ :=
  (s.data.drop (i * s.dim)).take s.dim

/-- The cosine score `search` computes for row `i`: the dot product of
the normalized query with the row (both searches compute it with
`dot_product_unrolled`, which equals `dot_list` in exact arithmetic). -/
noncomputable def rowScore (s : AbkveInner) (query : List ℝ) (i : Nat) : ℝ :=
  dot_list (normalize_vec query) (rowSlice s i)

/-- One iteration of the search loop (lib.rs:238): update the running
`(best_score, best_idx)` pair when the row's score is strictly greater. -/
noncomputable def selStep (f : Nat → ℝ) (acc : ℝ × Option Nat) (i : Nat) : ℝ × Option Nat :=
  if f i > acc.1 then (f i, some i) else acc

/-- The search scan `for i in 0..n` (lib.rs:232) with
`best_score = threshold`, `best_idx = None` as initial state. -/
noncomputable def selLoop (f : Nat → ℝ) (t : ℝ) (n : Nat) : ℝ × Option Nat :=
  (List.range n).foldl (selStep f) (t, none)

/-- `AbkveInner::search` (lib.rs:213): empty-store early return, then the
strict-greater scan over all rows against the normalized query, finally
`best_idx.map(|i| (self.ids[i], best_score))`.  The query-dimension
`assert_eq!` is modelled as a hypothesis. -/
noncomputable def AbkveInner.search (s : AbkveInner) (query : List ℝ) (threshold : ℝ) :
    Option (Nat × ℝ) :=
  if s.ids.length = 0 then none
  else
    let best := selLoop
      (fun i => dot_product_unrolled (normalize_vec query) (rowSlice s i))
      threshold s.ids.length
    best.2.map (fun i => (s.ids.getD i 0, best.1))

/-- The rayon reducer closure of `search_parallel` (lib.rs:276):
`if bs > as_ { (bi, bs) } else { (ai, as_) }` — keeps the left (lower
index) candidate on equal scores. -/
noncomputable def parStep (a b : Nat × ℝ) : Nat × ℝ :=
  if b.2 > a.2 then b else a

/-- The rayon `reduce` of `search_parallel` (lib.rs:274) with identity
`(usize::MAX, f32::NEG_INFINITY)`.  In exact real arithmetic every score
strictly exceeds `NEG_INFINITY`, so the identity never survives a
reduction over a non-empty chunk list and the reducer is associative with
a left bias; any reduction tree therefore equals the ordered left fold
modelled here.  An empty chunk list leaves the identity, whose
`usize::MAX` sentinel the caller maps to `None`; that case is modelled as
`none`. -/
noncomputable def parReduce (pairs : List (Nat × ℝ)) : Option (Nat × ℝ) :=
  match pairs with
  | [] => none
  | p :: rest => some (rest.foldl parStep p)

/-- `AbkveInner::search_parallel` (lib.rs:252): empty-store early return,
`par_chunks(dim).enumerate().map(score).reduce(...)`, then the
`best_idx == usize::MAX || best_score <= threshold` filter. -/
noncomputable def AbkveInner.search_parallel (s : AbkveInner) (query : List ℝ) (threshold : ℝ) :
    Option (Nat × ℝ) :=
  if s.ids.length = 0 then none
  else
    let nq := normalize_vec query
    let nChunks := (s.data.length + s.dim - 1) / s.dim
    match parReduce
        ((List.range nChunks).map (fun i => (i, dot_product_unrolled nq (rowSlice s i)))) with
    | none => none
    | some b => if b.2 ≤ threshold then none else some (s.ids.getD b.1 0, b.2)

/-- The running best pair of the rayon fold of `search_parallel` after
processing chunks `0..=n`, starting from the first chunk (the identity
element is absorbed immediately, see `parReduce`). -/
noncomputable def parBest (f : Nat → ℝ) : Nat → Nat × ℝ
  | 0 => (0, f 0)
  | n + 1 => parStep (parBest f n) (n + 1, f (n + 1))

/-- One step of Rust's `Iterator::max_by` (lib.rs:308): on equal scores
the NEW element replaces the accumulator, so the LAST maximal element of
the iterator is returned. -/
noncomputable def maxByStep (acc : Option (Nat × ℝ)) (x : Nat × ℝ) : Option (Nat × ℝ) :=
  match acc with
  | none => some x
  | some a => if x.2 < a.2 then some a else some x

/-- `AbkveInner::search_naive` (lib.rs:294):
`chunks_exact(dim).enumerate().map(score).filter(> threshold).max_by(...)`,
then the id lookup.  There is no empty-store early return in the source;
an empty store yields an empty chunk list and hence `None`. -/
noncomputable def AbkveInner.search_naive (s : AbkveInner) (query : List ℝ) (threshold : ℝ) :
    Option (Nat × ℝ) :=
  let nq := normalize_vec query
  let n := s.data.length / s.dim
  let pairs := (List.range n).map (fun i => (i, dot_list nq (rowSlice s i)))
  ((pairs.filter (fun p => threshold < p.2)).foldl maxByStep none).map
    (fun p => (s.ids.getD p.1 0, p.2))

/-- The value of `search_naive`'s `filter(> threshold).max_by(...)`
pipeline restricted to scores `0..n`, expressed as a recursion on `n`. -/
noncomputable def naiveBest (f : Nat → ℝ) (t : ℝ) : Nat → Option (Nat × ℝ)
  | 0 => none
  | n + 1 => if t < f n then maxByStep (naiveBest f t n) (n, f n) else naiveBest f t n

/-!
## Snapshot codec model

`Abkve::save` (lib.rs:106) is `bincode::serialize_into(writer, &inner)`
and `Abkve::load` (lib.rs:113) is `bincode::deserialize_from(reader)`
with bincode 1.x's legacy configuration: fixed-width integers,
little-endian byte order, `usize` encoded as `u64`, `Vec<T>` encoded as a
`u64` length followed by its elements, `f32` encoded as the 4 bytes of
its IEEE-754 bit pattern, no trailing-byte check, and struct fields
serialized in declaration order (`dim`, `data`, `ids`).

The model works over byte lists (`List ℕ`, each byte `< 256`).  Floats
appear only through their 32-bit patterns (`ℕ < 2^32`); the codec copies
patterns verbatim and never interprets them numerically.
-/

/-- The store as the codec sees it: `dim` (`usize` value), `data` (the
32-bit patterns of the stored `f32`s, in row order), `ids` (the `u64`
ids).  Field order matches the Rust struct `AbkveInner`. -/
structure AbkveSnapshot where
  dim : Nat
  data : List Nat
  ids : List Nat
deriving DecidableEq

/-- Little-endian 8-byte encoding of a `u64` value. -/
def u64ToLE (x : Nat) : List Nat :=
  [x % 256, x / 256 % 256, x / 256 ^ 2 % 256, x / 256 ^ 3 % 256,
   x / 256 ^ 4 % 256, x / 256 ^ 5 % 256, x / 256 ^ 6 % 256, x / 256 ^ 7 % 256]

/-- Little-endian 4-byte encoding of an `f32` bit pattern. -/
def u32ToLE (x : Nat) : List Nat :=
  [x % 256, x / 256 % 256, x / 256 ^ 2 % 256, x / 256 ^ 3 % 256]

/-- Value of a little-endian byte string. -/
def leToNat (bs : List Nat) : Nat :=
  bs.foldr (fun b acc => b + 256 * acc) 0

/-- `save` (lib.rs:106): the bincode image of the store — `dim` as a
little-endian `u64`, then `data` (length-prefixed `f32` patterns), then
`ids` (length-prefixed `u64` values), fields in struct order. -/
def saveBytes (s : AbkveSnapshot) : List Nat :=
  u64ToLE s.dim ++
    (u64ToLE s.data.length ++
      ((s.data.map u32ToLE).flatten ++
        (u64ToLE s.ids.length ++ (s.ids.map u64ToLE).flatten)))

/-- Read exactly `n` bytes from the stream; fails on a shorter stream. -/
def readBytes (n : Nat) (bs : List Nat) : Option (List Nat × List Nat) :=
  if n ≤ bs.length then some (bs.take n, bs.drop n) else none

/-- Read one little-endian `u64` (8 bytes). -/
def readU64 (bs : List Nat) : Option (Nat × List Nat) :=
  (readBytes 8 bs).map (fun p => (leToNat p.1, p.2))

/-- Read one `f32` bit pattern (4 little-endian bytes). -/
def readU32 (bs : List Nat) : Option (Nat × List Nat) :=
  (readBytes 4 bs).map (fun p => (leToNat p.1, p.2))

/-- Read `count` consecutive elements with the given element reader;
fails as soon as the element reader fails. -/
def readSeq (reader : List Nat → Option (Nat × List Nat)) :
    Nat → List Nat → Option (List Nat × List Nat)
  | 0, bs => some ([], bs)
  | n + 1, bs =>
    (reader bs).bind fun p =>
      (readSeq reader n p.2).bind fun q => some (p.1 :: q.1, q.2)

/-- `load` (lib.rs:113): bincode decode of `AbkveInner` — `dim`, then the
length-prefixed `data` vector, then the length-prefixed `ids` vector.
bincode performs no cross-field validation (it never compares
`data.len()` with `ids.len() * dim`, nor checks `dim > 0`) and ignores
trailing bytes when reading from a stream. -/
def loadBytes (bs : List Nat) : Option AbkveSnapshot :=
  (readU64 bs).bind fun d =>
    (readU64 d.2).bind fun dl =>
      (readSeq readU32 dl.1 dl.2).bind fun data =>
        (readU64 data.2).bind fun il =>
          (readSeq readU64 il.1 il.2).bind fun ids =>
            some ⟨d.1, data.1, ids.1⟩

/-- Modelled from the spec (§6 "Snapshot file layout"): the byte layout
the specification claims — `dim`, then `ids_len` and the ids, then
`data_len` and the data.  Stated only for comparison against the
source-derived `saveBytes`. -/
def specSnapshotLayout (s : AbkveSnapshot) : List Nat :=
  u64ToLE s.dim ++
    (u64ToLE s.ids.length ++
      ((s.ids.map u64ToLE).flatten ++
        (u64ToLE s.data.length ++ (s.data.map u32ToLE).flatten)))

/-!
## Helper lemmas
-/

/-- Eight interleaved lane sums recombine into a single range sum. -/
lemma sum_lanes_eight (g : Nat → ℝ) (c : Nat) :
    (∑ i ∈ Finset.range c, g (i * 8)) + (∑ i ∈ Finset.range c, g (i * 8 + 1)) +
    (∑ i ∈ Finset.range c, g (i * 8 + 2)) + (∑ i ∈ Finset.range c, g (i * 8 + 3)) +
    (∑ i ∈ Finset.range c, g (i * 8 + 4)) + (∑ i ∈ Finset.range c, g (i * 8 + 5)) +
    (∑ i ∈ Finset.range c, g (i * 8 + 6)) + (∑ i ∈ Finset.range c, g (i * 8 + 7)) =
    ∑ k ∈ Finset.range (c * 8), g k := by
  induction c with
  | zero => simp
  | succ c ih =>
    rw [show (c + 1) * 8 = c * 8 + 8 by ring, Finset.sum_range_add]
    simp only [Finset.sum_range_succ, Finset.sum_range_zero, Nat.add_zero]
    rw [← ih]
    ring

/-- The zip-based dot product as an indexed sum (indices past the end of
either list contribute `0`). -/
lemma dot_list_eq_sum (a b : List ℝ) :
    dot_list a b = ∑ i ∈ Finset.range a.length, a.getD i 0 * b.getD i 0 := by
  induction a generalizing b with
  | nil => simp [dot_list]
  | cons x a ih =>
    cases b with
    | nil => simp [dot_list]
    | cons y b =>
      have h : dot_list (x :: a) (y :: b) = x * y + dot_list a b := by
        simp [dot_list]
      rw [h, ih, List.length_cons, Finset.sum_range_succ']
      simp only [List.getD_cons_succ, List.getD_cons_zero]
      ring

/-- In exact real arithmetic the eight-lane unrolled kernel computes the
reference dot product: the claimed "few ULPs" associativity drift is 0. -/
lemma dot_product_unrolled_eq (a b : List ℝ) :
    dot_product_unrolled a b = dot_list a b := by
  rw [dot_list_eq_sum]
  unfold dot_product_unrolled
  simp only [Nat.add_zero]
  rw [sum_lanes_eight (fun k => a.getD k 0 * b.getD k 0) (a.length / 8)]
  rw [Finset.range_eq_Ico,
    ← Finset.sum_Ico_consecutive (fun i => a.getD i 0 * b.getD i 0)
      (Nat.zero_le (a.length / 8 * 8)) (Nat.div_mul_le_self a.length 8)]

lemma selLoop_succ (f : Nat → ℝ) (t : ℝ) (n : Nat) :
    selLoop f t (n + 1) = selStep f (selLoop f t n) n := by
  unfold selLoop
  rw [List.range_succ, List.foldl_append]
  rfl

lemma selLoop_spec (f : Nat → ℝ) (t : ℝ) (n : Nat) :
    ((selLoop f t n).2 = none → (selLoop f t n).1 = t ∧ ∀ i < n, f i ≤ t) ∧
    (∀ i, (selLoop f t n).2 = some i →
      i < n ∧ (selLoop f t n).1 = f i ∧ t < f i ∧
        (∀ j < n, f j ≤ f i) ∧ ∀ j < i, f j < f i) := by
  induction n with
  | zero =>
    constructor
    · intro _
      exact ⟨rfl, fun i h => absurd h (Nat.not_lt_zero i)⟩
    · intro i h
      simp [selLoop] at h
  | succ n ih =>
    rcases ih with ⟨hnone, hsome⟩
    have hub : ∀ j < n, f j ≤ (selLoop f t n).1 := by
      intro j hj
      cases ho : (selLoop f t n).2 with
      | none =>
        obtain ⟨h1, h2⟩ := hnone ho
        rw [h1]; exact h2 j hj
      | some k =>
        obtain ⟨_, h1, _, h3, _⟩ := hsome k ho
        rw [h1]; exact h3 j hj
    have htle : t ≤ (selLoop f t n).1 := by
      cases ho : (selLoop f t n).2 with
      | none => exact le_of_eq (hnone ho).1.symm
      | some k =>
        obtain ⟨_, h1, h2, _, _⟩ := hsome k ho
        rw [h1]; exact le_of_lt h2
    rw [selLoop_succ]
    unfold selStep
    by_cases hgt : f n > (selLoop f t n).1
    · rw [if_pos hgt]
      constructor
      · intro h; exact absurd h (by simp)
      · intro i h
        have hin : i = n := by simpa using h.symm
        subst hin
        refine ⟨Nat.lt_succ_self i, rfl, lt_of_le_of_lt htle hgt, ?_, ?_⟩
        · intro j hj
          rcases Nat.lt_succ_iff_lt_or_eq.mp hj with hj' | hj'
          · exact le_of_lt (lt_of_le_of_lt (hub j hj') hgt)
          · subst hj'; exact le_refl _
        · intro j hj
          exact lt_of_le_of_lt (hub j hj) hgt
    · rw [if_neg hgt]
      push_neg at hgt
      constructor
      · intro h
        obtain ⟨h1, h2⟩ := hnone h
        refine ⟨h1, fun i hi => ?_⟩
        rcases Nat.lt_succ_iff_lt_or_eq.mp hi with hi' | hi'
        · exact h2 i hi'
        · subst hi'; rw [← h1]; exact hgt
      · intro i h
        obtain ⟨h1, h2, h3, h4, h5⟩ := hsome i h
        refine ⟨Nat.lt_succ_of_lt h1, h2, h3, fun j hj => ?_, h5⟩
        rcases Nat.lt_succ_iff_lt_or_eq.mp hj with hj' | hj'
        · exact h4 j hj'
        · subst hj'; rw [← h2]; exact hgt

lemma selLoop_none_iff (f : Nat → ℝ) (t : ℝ) (n : Nat) :
    (selLoop f t n).2 = none ↔ ∀ i < n, f i ≤ t := by
  constructor
  · intro h; exact ((selLoop_spec f t n).1 h).2
  · intro h
    cases ho : (selLoop f t n).2 with
    | none => rfl
    | some k =>
      obtain ⟨hk, _, hlt, _, _⟩ := (selLoop_spec f t n).2 k ho
      exact absurd (h k hk) (not_le.mpr hlt)

lemma search_none_iff (s : AbkveInner) (q : List ℝ) (t : ℝ) :
    s.search q t = none ↔ ∀ i < s.ids.length, rowScore s q i ≤ t := by
  unfold AbkveInner.search
  by_cases h0 : s.ids.length = 0
  · simp only [h0, if_true, eq_self_iff_true, if_pos]
    constructor
    · intro _ i hi; exact absurd hi (Nat.not_lt_zero i)
    · intro _; trivial
  · simp only [h0, if_false, Option.map_eq_none']
    rw [selLoop_none_iff]
    simp only [dot_product_unrolled_eq]
    rfl

lemma search_some_spec (s : AbkveInner) (q : List ℝ) (t : ℝ) (id : Nat) (r : ℝ)
    (h : s.search q t = some (id, r)) :
    ∃ i, i < s.ids.length ∧ id = s.ids.getD i 0 ∧ r = rowScore s q i ∧ t < r ∧
      (∀ j < s.ids.length, rowScore s q j ≤ r) ∧ ∀ j < i, rowScore s q j < r := by
  unfold AbkveInner.search at h
  by_cases h0 : s.ids.length = 0
  · simp [h0] at h
  · simp only [h0, if_false, Option.map_eq_some'] at h
    obtain ⟨i, hi, hgi⟩ := h
    obtain ⟨h1, h2, h3, h4, h5⟩ := (selLoop_spec _ t _).2 i hi
    have hid : id = s.ids.getD i 0 := by
      have := congrArg Prod.fst hgi
      simpa using this.symm
    have hr : r = (selLoop (fun i => dot_product_unrolled (normalize_vec q) (rowSlice s i)) t s.ids.length).1 := by
      have := congrArg Prod.snd hgi
      simpa using this.symm
    refine ⟨i, h1, hid, ?_, ?_, ?_, ?_⟩
    · rw [hr, h2, dot_product_unrolled_eq]; rfl
    · rw [hr, h2]; rw [dot_product_unrolled_eq] at h3 ⊢; exact h3
    · intro j hj
      rw [hr, h2]
      have := h4 j hj
      simp only [dot_product_unrolled_eq] at this
      simp only [rowScore, dot_product_unrolled_eq]
      exact this
    · intro j hj
      rw [hr, h2]
      have := h5 j hj
      simp only [dot_product_unrolled_eq] at this
      simp only [rowScore, dot_product_unrolled_eq]
      exact this

/-- C1: `search(query, t)` is `None` exactly when no stored row has dot
product with the normalized query strictly greater than `t` (in
particular on the empty store); otherwise it returns `some (ids[i], r)`
where `r` is the maximal such dot product, `r > t`, and `i` is the lowest
row index achieving `r` (earliest-inserted row wins ties). -/
theorem search_threshold_argmax (s : AbkveInner) (q : List ℝ) (t : ℝ)
    (hq : q.length = s.dim) (hinv : s.data.length = s.ids.length * s.dim) :
    (s.search q t = none ↔ ∀ i < s.ids.length, rowScore s q i ≤ t) ∧
    ∀ id r, s.search q t = some (id, r) →
      ∃ i, i < s.ids.length ∧ id = s.ids.getD i 0 ∧ r = rowScore s q i ∧ t < r ∧
        (∀ j < s.ids.length, rowScore s q j ≤ r) ∧ ∀ j < i, rowScore s q j < r :=
  ⟨search_none_iff s q t, fun id r h => search_some_spec s q t id r h⟩

/-- Witness for C1 at the concrete store `dim = 2`, rows `[1,0]`, `[0,1]`,
ids `[10, 20]`, query `[1, 0]`, threshold `0`. -/
theorem search_threshold_argmax_witness :
    (([(1:ℝ), 0] : List ℝ).length = (⟨2, [1, 0, 0, 1], [10, 20]⟩ : AbkveInner).dim) ∧
    ((⟨2, [1, 0, 0, 1], [10, 20]⟩ : AbkveInner).data.length =
      (⟨2, [1, 0, 0, 1], [10, 20]⟩ : AbkveInner).ids.length *
        (⟨2, [1, 0, 0, 1], [10, 20]⟩ : AbkveInner).dim) ∧
    ((AbkveInner.search ⟨2, [1, 0, 0, 1], [10, 20]⟩ [1, 0] 0 = none ↔
        ∀ i < (⟨2, [1, 0, 0, 1], [10, 20]⟩ : AbkveInner).ids.length,
          rowScore ⟨2, [1, 0, 0, 1], [10, 20]⟩ [1, 0] i ≤ 0) ∧
      ∀ id r, AbkveInner.search ⟨2, [1, 0, 0, 1], [10, 20]⟩ [1, 0] 0 = some (id, r) →
        ∃ i, i < (⟨2, [1, 0, 0, 1], [10, 20]⟩ : AbkveInner).ids.length ∧
          id = (⟨2, [1, 0, 0, 1], [10, 20]⟩ : AbkveInner).ids.getD i 0 ∧
          r = rowScore ⟨2, [1, 0, 0, 1], [10, 20]⟩ [1, 0] i ∧ 0 < r ∧
          (∀ j < (⟨2, [1, 0, 0, 1], [10, 20]⟩ : AbkveInner).ids.length,
            rowScore ⟨2, [1, 0, 0, 1], [10, 20]⟩ [1, 0] j ≤ r) ∧
          ∀ j < i, rowScore ⟨2, [1, 0, 0, 1], [10, 20]⟩ [1, 0] j < r) :=
  ⟨rfl, rfl, search_threshold_argmax ⟨2, [1, 0, 0, 1], [10, 20]⟩ [1, 0] 0 rfl rfl⟩

lemma add_dim (s : AbkveInner) (id : Nat) (v : List ℝ) : (s.add id v).dim = s.dim := rfl

lemma add_ids_length (s : AbkveInner) (id : Nat) (v : List ℝ) :
    (s.add id v).ids.length = s.ids.length + 1 := by
  simp [AbkveInner.add]

lemma add_data_length (s : AbkveInner) (id : Nat) (v : List ℝ) :
    (s.add id v).data.length = s.data.length + v.length := by
  simp [AbkveInner.add]

lemma applyAdds_invariant (ops : List (Nat × List ℝ)) (s : AbkveInner)
    (hops : ∀ op ∈ ops, op.2.length = s.dim) :
    (applyAdds s ops).dim = s.dim ∧
    (applyAdds s ops).ids.length = s.ids.length + ops.length ∧
    (applyAdds s ops).data.length = s.data.length + ops.length * s.dim := by
  induction ops generalizing s with
  | nil => simp [applyAdds]
  | cons op ops ih =>
    have hop : op.2.length = s.dim := hops op (List.mem_cons_self op ops)
    have hrest : ∀ p ∈ ops, p.2.length = (s.add op.1 op.2).dim := by
      intro p hp; rw [add_dim]; exact hops p (List.mem_cons_of_mem op hp)
    have h := ih (s.add op.1 op.2) hrest
    have e : applyAdds s (op :: ops) = applyAdds (s.add op.1 op.2) ops := by
      unfold applyAdds; rw [List.foldl_cons]
    rw [e]
    rcases h with ⟨h1, h2, h3⟩
    have hd : (s.add op.1 op.2).dim = s.dim := rfl
    rw [hd] at h3
    refine ⟨by rw [h1, hd], ?_, ?_⟩
    · rw [h2, add_ids_length, List.length_cons]; ring
    · rw [h3, add_data_length, hop, List.length_cons]; ring

/-- C7: starting from `new(dim, capacity)` with `dim > 0`, after any
sequence of `add` operations whose vectors all have length `dim`, `len()`
equals the number of `add`s performed and `|data| = len() * dim` (and the
dimension is unchanged): the length invariant is preserved by every
operation. -/
theorem new_applyAdds_lengths (dim capacity : Nat) (hdim : 0 < dim)
    (ops : List (Nat × List ℝ)) (hops : ∀ op ∈ ops, op.2.length = dim) :
    (applyAdds (AbkveInner.new dim capacity) ops).len = ops.length ∧
    (applyAdds (AbkveInner.new dim capacity) ops).data.length =
      (applyAdds (AbkveInner.new dim capacity) ops).len * dim ∧
    (applyAdds (AbkveInner.new dim capacity) ops).dim = dim := by
  have h := applyAdds_invariant ops (AbkveInner.new dim capacity) hops
  rcases h with ⟨h1, h2, h3⟩
  refine ⟨?_, ?_, h1⟩
  · unfold AbkveInner.len
    rw [h2]
    simp [AbkveInner.new]
  · unfold AbkveInner.len
    rw [h2, h3]
    simp [AbkveInner.new]

/-- Witness for C7: two inserts of 2-dimensional vectors. -/
theorem new_applyAdds_lengths_witness :
    0 < 2 ∧ (∀ op ∈ [((5:Nat), [(1:ℝ), 0]), (6, [0, 1])], op.2.length = 2) ∧
    ((applyAdds (AbkveInner.new 2 4) [(5, [1, 0]), (6, [0, 1])]).len = 2 ∧
     (applyAdds (AbkveInner.new 2 4) [(5, [1, 0]), (6, [0, 1])]).data.length =
       (applyAdds (AbkveInner.new 2 4) [(5, [1, 0]), (6, [0, 1])]).len * 2 ∧
     (applyAdds (AbkveInner.new 2 4) [(5, [1, 0]), (6, [0, 1])]).dim = 2) :=
  ⟨by decide,
   by intro op hop
      simp only [List.mem_cons, List.not_mem_nil, or_false] at hop
      rcases hop with rfl | rfl <;> rfl,
   new_applyAdds_lengths 2 4 (by decide) _
     (by intro op hop
         simp only [List.mem_cons, List.not_mem_nil, or_false] at hop
         rcases hop with rfl | rfl <;> rfl)⟩

lemma sumSq_map_mul (v : List ℝ) (c : ℝ) :
    ((v.map (fun x => x * c)).map (fun x => x * x)).sum =
      c ^ 2 * ((v.map (fun x => x * x)).sum) := by
  induction v with
  | nil => simp
  | cons x v ih =>
    simp only [List.map_cons, List.sum_cons, ih]
    ring

lemma l2_norm_map_mul (v : List ℝ) (c : ℝ) :
    l2_norm (v.map (fun x => x * c)) = |c| * l2_norm v := by
  unfold l2_norm
  rw [sumSq_map_mul, Real.sqrt_mul (sq_nonneg c), Real.sqrt_sq_eq_abs]

/-- C8: `add` appends each component of the vector multiplied by the
inverse-norm factor; when `‖v‖ > 1e-10` that factor is `1 / ‖v‖` and the
stored row has L2 norm within `1e-5` of `1` (exactly `1` in exact
arithmetic); when `‖v‖ ≤ 1e-10` the vector is stored unchanged. -/
theorem add_normalizes (s : AbkveInner) (id : Nat) (v : List ℝ) (hv : v.length = s.dim) :
    (s.add id v).data = s.data ++ v.map (fun x => x * inv_norm v) ∧
    (1 / 10 ^ 10 < l2_norm v →
      v.map (fun x => x * inv_norm v) = v.map (fun x => x * (1 / l2_norm v)) ∧
      |l2_norm (v.map (fun x => x * inv_norm v)) - 1| ≤ 1 / 10 ^ 5) ∧
    (l2_norm v ≤ 1 / 10 ^ 10 → v.map (fun x => x * inv_norm v) = v) := by
  refine ⟨rfl, ?_, ?_⟩
  · intro h
    have hpos : (0 : ℝ) < l2_norm v := lt_trans (by norm_num) h
    have hinv : inv_norm v = 1 / l2_norm v := by
      unfold inv_norm; rw [if_pos h]
    refine ⟨by rw [hinv], ?_⟩
    rw [hinv, l2_norm_map_mul, one_div, abs_of_pos (inv_pos.mpr hpos),
      inv_mul_cancel₀ (ne_of_gt hpos)]
    norm_num
  · intro h
    have hinv : inv_norm v = 1 := by
      unfold inv_norm; rw [if_neg (not_lt.mpr h)]
    rw [hinv]
    simp

/-- Witness for C8 with `v = [3, 4]` on an empty 2-dimensional store. -/
theorem add_normalizes_witness :
    (([(3:ℝ), 4] : List ℝ).length = (⟨2, [], []⟩ : AbkveInner).dim) ∧
    ((AbkveInner.add ⟨2, [], []⟩ 42 [3, 4]).data =
        [] ++ ([(3:ℝ), 4]).map (fun x => x * inv_norm [3, 4]) ∧
      (1 / 10 ^ 10 < l2_norm [(3:ℝ), 4] →
        ([(3:ℝ), 4]).map (fun x => x * inv_norm [3, 4]) =
          ([(3:ℝ), 4]).map (fun x => x * (1 / l2_norm [3, 4])) ∧
        |l2_norm (([(3:ℝ), 4]).map (fun x => x * inv_norm [3, 4])) - 1| ≤ 1 / 10 ^ 5) ∧
      (l2_norm [(3:ℝ), 4] ≤ 1 / 10 ^ 10 →
        ([(3:ℝ), 4]).map (fun x => x * inv_norm [3, 4]) = [3, 4])) :=
  ⟨rfl, add_normalizes ⟨2, [], []⟩ 42 [3, 4] rfl⟩

/-- C9: a vector whose L2 norm is at most `1e-10` (e.g. the zero vector)
is accepted by `add` like any other insert: it is stored as-is as a new
row and its id is appended. -/
theorem add_zero_vector_kept (s : AbkveInner) (id : Nat) (v : List ℝ)
    (hv : v.length = s.dim) (hsmall : l2_norm v ≤ 1 / 10 ^ 10) :
    (s.add id v).data = s.data ++ v ∧ (s.add id v).ids = s.ids ++ [id] := by
  have hinv : inv_norm v = 1 := by
    unfold inv_norm; rw [if_neg (not_lt.mpr hsmall)]
  constructor
  · show s.data ++ v.map (fun x => x * inv_norm v) = s.data ++ v
    rw [hinv]
    simp
  · rfl

/-- Witness for C9 with the zero vector `[0, 0]`. -/
theorem add_zero_vector_kept_witness :
    (([(0:ℝ), 0] : List ℝ).length = (⟨2, [], []⟩ : AbkveInner).dim) ∧
    l2_norm [(0:ℝ), 0] ≤ 1 / 10 ^ 10 ∧
    ((AbkveInner.add ⟨2, [], []⟩ 7 [0, 0]).data = [] ++ [(0:ℝ), 0] ∧
      (AbkveInner.add ⟨2, [], []⟩ 7 [0, 0]).ids = [] ++ [7]) :=
  ⟨rfl, by simp [l2_norm],
   add_zero_vector_kept ⟨2, [], []⟩ 7 [0, 0] rfl (by simp [l2_norm])⟩

/-- C10: a query whose L2 norm is at most `1e-10` passes through
`normalize_vec` unchanged (the factor is `1`), so the searches compare the
raw dot products of the stored rows with the unnormalized query. -/
theorem small_query_unnormalized (q : List ℝ) (hsmall : l2_norm q ≤ 1 / 10 ^ 10) :
    normalize_vec q = q ∧
    ∀ (s : AbkveInner) (t : ℝ),
      s.search q t = none ↔ ∀ i < s.ids.length, dot_list q (rowSlice s i) ≤ t := by
  have hinv : inv_norm q = 1 := by
    unfold inv_norm; rw [if_neg (not_lt.mpr hsmall)]
  have hn : normalize_vec q = q := by
    unfold normalize_vec; rw [hinv]; simp
  refine ⟨hn, fun s t => ?_⟩
  rw [search_none_iff]
  simp only [rowScore, hn]

/-- Witness for C10 with the query `[0, 0]` against a one-row store. -/
theorem small_query_unnormalized_witness :
    l2_norm [(0:ℝ), 0] ≤ 1 / 10 ^ 10 ∧
    (normalize_vec [(0:ℝ), 0] = [0, 0] ∧
      ∀ (s : AbkveInner) (t : ℝ),
        s.search [(0:ℝ), 0] t = none ↔
          ∀ i < s.ids.length, dot_list [(0:ℝ), 0] (rowSlice s i) ≤ t) :=
  ⟨by simp [l2_norm],
   small_query_unnormalized [0, 0] (by simp [l2_norm])⟩

lemma parReduce_append_one (l : List (Nat × ℝ)) (x b : Nat × ℝ) (h : parReduce l = some b) :
    parReduce (l ++ [x]) = some (parStep b x) := by
  cases l with
  | nil => simp [parReduce] at h
  | cons p rest =>
    simp only [parReduce, Option.some_inj] at h
    simp only [List.cons_append, parReduce, List.foldl_append, List.foldl_cons,
      List.foldl_nil, h]

lemma parReduce_range (f : Nat → ℝ) (n : Nat) :
    parReduce ((List.range (n + 1)).map (fun i => (i, f i))) = some (parBest f n) := by
  induction n with
  | zero => rfl
  | succ n ih =>
    rw [List.range_succ, List.map_append, List.map_cons, List.map_nil]
    rw [parReduce_append_one _ _ _ ih]
    rfl

lemma parBest_spec (f : Nat → ℝ) (n : Nat) :
    (parBest f n).1 ≤ n ∧ (parBest f n).2 = f (parBest f n).1 ∧
    (∀ j ≤ n, f j ≤ (parBest f n).2) ∧ ∀ j < (parBest f n).1, f j < (parBest f n).2 := by
  induction n with
  | zero =>
    refine ⟨le_refl 0, rfl, ?_, ?_⟩
    · intro j hj
      have : j = 0 := Nat.le_zero.mp hj
      subst this
      exact le_refl _
    · intro j hj
      exact absurd hj (Nat.not_lt_zero j)
  | succ n ih =>
    obtain ⟨h1, h2, h3, h4⟩ := ih
    have hstep : parBest f (n + 1) = parStep (parBest f n) (n + 1, f (n + 1)) := rfl
    by_cases hgt : f (n + 1) > (parBest f n).2
    · have he : parBest f (n + 1) = (n + 1, f (n + 1)) := by
        rw [hstep]; unfold parStep; rw [if_pos hgt]
      rw [he]
      refine ⟨le_refl _, rfl, ?_, ?_⟩
      · intro j hj
        rcases Nat.lt_succ_iff_lt_or_eq.mp (Nat.lt_succ_of_le hj) with hj' | hj'
        · exact le_of_lt (lt_of_le_of_lt (h3 j (Nat.lt_succ_iff.mp hj')) hgt)
        · subst hj'; exact le_refl _
      · intro j hj
        exact lt_of_le_of_lt (h3 j (Nat.lt_succ_iff.mp hj)) hgt
    · have he : parBest f (n + 1) = parBest f n := by
        rw [hstep]; unfold parStep; rw [if_neg hgt]
      push_neg at hgt
      rw [he]
      refine ⟨Nat.le_succ_of_le h1, h2, ?_, h4⟩
      intro j hj
      rcases Nat.lt_succ_iff_lt_or_eq.mp (Nat.lt_succ_of_le hj) with hj' | hj'
      · exact h3 j (Nat.lt_succ_iff.mp hj')
      · subst hj'; exact hgt

/-- C3: in exact real arithmetic `search_parallel` returns exactly the
same result as `search`: the same `None`/`Some` outcome, the same id (the
reducer keeps the lower row index on equal scores), and the same score
(the reduction-order drift allowed by the claim is 0 here). -/
theorem search_parallel_eq_search (s : AbkveInner) (q : List ℝ) (t : ℝ)
    (hq : q.length = s.dim) (hinv : s.data.length = s.ids.length * s.dim)
    (hdim : 0 < s.dim) :
    s.search_parallel q t = s.search q t := by
  by_cases h0 : s.ids.length = 0
  · unfold AbkveInner.search_parallel AbkveInner.search
    rw [if_pos h0, if_pos h0]
  · obtain ⟨m, hm⟩ : ∃ m, s.ids.length = m + 1 :=
      ⟨s.ids.length - 1, by omega⟩
    have hchunks : (s.data.length + s.dim - 1) / s.dim = s.ids.length := by
      rw [hinv,
        show s.ids.length * s.dim + s.dim - 1 = (s.dim - 1) + s.ids.length * s.dim by omega,
        Nat.add_mul_div_right _ _ hdim, Nat.div_eq_of_lt (by omega), Nat.zero_add]
    have hpar : s.search_parallel q t =
        if (parBest (fun i => dot_product_unrolled (normalize_vec q) (rowSlice s i)) m).2 ≤ t
        then none
        else some (s.ids.getD
            (parBest (fun i => dot_product_unrolled (normalize_vec q) (rowSlice s i)) m).1 0,
          (parBest (fun i => dot_product_unrolled (normalize_vec q) (rowSlice s i)) m).2) := by
      unfold AbkveInner.search_parallel
      rw [if_neg h0]
      simp only [hchunks, hm,
        parReduce_range (fun i => dot_product_unrolled (normalize_vec q) (rowSlice s i)) m]
    obtain ⟨hB1, hB2, hBmax, hBfirst⟩ :=
      parBest_spec (fun i => dot_product_unrolled (normalize_vec q) (rowSlice s i)) m
    by_cases hle :
        (parBest (fun i => dot_product_unrolled (normalize_vec q) (rowSlice s i)) m).2 ≤ t
    · rw [hpar, if_pos hle]
      have hall : ∀ i < s.ids.length,
          (fun i => dot_product_unrolled (normalize_vec q) (rowSlice s i)) i ≤ t := by
        intro i hi
        exact le_trans (hBmax i (by omega)) hle
      have hnone :
          (selLoop (fun i => dot_product_unrolled (normalize_vec q) (rowSlice s i))
            t s.ids.length).2 = none :=
        (selLoop_none_iff _ t _).mpr hall
      unfold AbkveInner.search
      rw [if_neg h0]
      simp only [hnone, Option.map_none']
    · push_neg at hle
      rw [hpar, if_neg (not_le.mpr hle)]
      cases ho : (selLoop (fun i => dot_product_unrolled (normalize_vec q) (rowSlice s i))
          t s.ids.length).2 with
      | none =>
        obtain ⟨_, hall⟩ := (selLoop_spec _ t _).1 ho
        have hc := hall _ (by omega :
          (parBest (fun i => dot_product_unrolled (normalize_vec q) (rowSlice s i)) m).1
            < s.ids.length)
        rw [← hB2] at hc
        exact absurd hle (not_lt.mpr hc)
      | some i =>
        obtain ⟨hi1, hi2, hi3, hi4, hi5⟩ := (selLoop_spec _ t _).2 i ho
        have hieq :
            i = (parBest (fun i => dot_product_unrolled (normalize_vec q) (rowSlice s i)) m).1 := by
          rcases Nat.lt_trichotomy i
            (parBest (fun i => dot_product_unrolled (normalize_vec q) (rowSlice s i)) m).1
            with h | h | h
          · have hlt := hBfirst i h
            have hge := hi4 _ (by omega :
              (parBest (fun i => dot_product_unrolled (normalize_vec q) (rowSlice s i)) m).1
                < s.ids.length)
            rw [hB2] at hlt
            exact absurd hge (not_le.mpr hlt)
          · exact h
          · have hlt := hi5 _ h
            have hge := hBmax i (by omega)
            rw [hB2] at hge
            exact absurd hge (not_le.mpr hlt)
        unfold AbkveInner.search
        rw [if_neg h0]
        simp only [ho, Option.map_some']
        rw [hi2, hieq, ← hB2]

/-- Witness for C3 at a concrete 2-row store. -/
theorem search_parallel_eq_search_witness :
    (([(1:ℝ), 0] : List ℝ).length = (⟨2, [1, 0, 0, 1], [10, 20]⟩ : AbkveInner).dim) ∧
    ((⟨2, [1, 0, 0, 1], [10, 20]⟩ : AbkveInner).data.length =
      (⟨2, [1, 0, 0, 1], [10, 20]⟩ : AbkveInner).ids.length *
        (⟨2, [1, 0, 0, 1], [10, 20]⟩ : AbkveInner).dim) ∧
    0 < (⟨2, [1, 0, 0, 1], [10, 20]⟩ : AbkveInner).dim ∧
    AbkveInner.search_parallel ⟨2, [1, 0, 0, 1], [10, 20]⟩ [1, 0] 0 =
      AbkveInner.search ⟨2, [1, 0, 0, 1], [10, 20]⟩ [1, 0] 0 :=
  ⟨rfl, rfl, by decide,
   search_parallel_eq_search ⟨2, [1, 0, 0, 1], [10, 20]⟩ [1, 0] 0 rfl rfl (by decide)⟩

lemma naiveBest_succ (f : Nat → ℝ) (t : ℝ) (n : Nat) :
    naiveBest f t (n + 1) =
      if t < f n then maxByStep (naiveBest f t n) (n, f n) else naiveBest f t n := rfl

lemma naive_filter_fold (f : Nat → ℝ) (t : ℝ) (n : Nat) :
    (((List.range n).map (fun i => (i, f i))).filter (fun p => t < p.2)).foldl maxByStep none
      = naiveBest f t n := by
  induction n with
  | zero => rfl
  | succ n ih =>
    rw [List.range_succ, List.map_append, List.map_cons, List.map_nil, List.filter_append]
    have hsingle : (([(n, f n)] : List (Nat × ℝ)).filter (fun p => t < p.2)) =
        if t < f n then [(n, f n)] else [] := by
      by_cases h : t < f n
      · simp [List.filter, h]
      · simp [List.filter, h]
    rw [hsingle, naiveBest_succ]
    by_cases h : t < f n
    · rw [if_pos h, if_pos h, List.foldl_append, ih]
      rfl
    · rw [if_neg h, if_neg h, List.append_nil, ih]

lemma naiveBest_spec (f : Nat → ℝ) (t : ℝ) (n : Nat) :
    (naiveBest f t n = none → ∀ i < n, f i ≤ t) ∧
    (∀ p, naiveBest f t n = some p →
      p.1 < n ∧ p.2 = f p.1 ∧ t < f p.1 ∧ (∀ i < n, f i ≤ f p.1) ∧
        ∀ i < n, f p.1 ≤ f i → i ≤ p.1) := by
  induction n with
  | zero =>
    constructor
    · intro _ i hi; exact absurd hi (Nat.not_lt_zero i)
    · intro p hp; exact absurd hp (by simp [naiveBest])
  | succ n ih =>
    obtain ⟨ihn, ihs⟩ := ih
    rw [naiveBest_succ]
    by_cases ht : t < f n
    · rw [if_pos ht]
      cases hprev : naiveBest f t n with
      | none =>
        have hall := ihn hprev
        constructor
        · intro h; exact absurd h (by simp [maxByStep])
        · intro p hp
          have hpeq : p = (n, f n) := by simpa [maxByStep] using hp.symm
          subst hpeq
          refine ⟨Nat.lt_succ_self n, rfl, ht, ?_, ?_⟩
          · intro i hi
            rcases Nat.lt_succ_iff_lt_or_eq.mp hi with hi' | hi'
            · exact le_trans (hall i hi') (le_of_lt ht)
            · subst hi'; exact le_refl _
          · intro i hi _
            exact Nat.lt_succ_iff.mp hi
      | some a =>
        obtain ⟨ha1, ha2, ha3, ha4, ha5⟩ := ihs a hprev
        constructor
        · intro h
          by_cases hc : f n < a.2 <;> simp [maxByStep, hc] at h
        · intro p hp
          rw [show maxByStep (some a) (n, f n) =
              if f n < a.2 then some a else some (n, f n) from rfl] at hp
          by_cases hc : f n < a.2
          · rw [if_pos hc] at hp
            have hpa : p = a := by simpa using hp.symm
            subst hpa
            refine ⟨Nat.lt_succ_of_lt ha1, ha2, ha3, ?_, ?_⟩
            · intro i hi
              rcases Nat.lt_succ_iff_lt_or_eq.mp hi with hi' | hi'
              · exact ha4 i hi'
              · subst hi'; rw [← ha2]; exact le_of_lt hc
            · intro i hi hle
              rcases Nat.lt_succ_iff_lt_or_eq.mp hi with hi' | hi'
              · exact ha5 i hi' hle
              · subst hi'
                rw [← ha2] at hle
                exact absurd hc (not_lt.mpr hle)
          · rw [if_neg hc] at hp
            push_neg at hc
            have hpn : p = (n, f n) := by simpa using hp.symm
            subst hpn
            refine ⟨Nat.lt_succ_self n, rfl, ht, ?_, ?_⟩
            · intro i hi
              rcases Nat.lt_succ_iff_lt_or_eq.mp hi with hi' | hi'
              · exact le_trans (ha4 i hi') (ha2 ▸ hc)
              · subst hi'; exact le_refl _
            · intro i hi _
              exact Nat.lt_succ_iff.mp hi
    · rw [if_neg ht]
      push_neg at ht
      constructor
      · intro h
        intro i hi
        rcases Nat.lt_succ_iff_lt_or_eq.mp hi with hi' | hi'
        · exact ihn h i hi'
        · subst hi'; exact ht
      · intro p hp
        obtain ⟨h1, h2, h3, h4, h5⟩ := ihs p hp
        refine ⟨Nat.lt_succ_of_lt h1, h2, h3, ?_, ?_⟩
        · intro i hi
          rcases Nat.lt_succ_iff_lt_or_eq.mp hi with hi' | hi'
          · exact h4 i hi'
          · subst hi'; exact le_trans ht (le_of_lt h3)
        · intro i hi hle
          rcases Nat.lt_succ_iff_lt_or_eq.mp hi with hi' | hi'
          · exact h5 i hi' hle
          · subst hi'
            have : f p.1 ≤ t := le_trans hle ht
            exact absurd h3 (not_lt.mpr this)

lemma naiveBest_none_iff (f : Nat → ℝ) (t : ℝ) (n : Nat) :
    naiveBest f t n = none ↔ ∀ i < n, f i ≤ t := by
  constructor
  · exact (naiveBest_spec f t n).1
  · intro h
    cases hb : naiveBest f t n with
    | none => rfl
    | some p =>
      obtain ⟨h1, _, h3, _, _⟩ := (naiveBest_spec f t n).2 p hb
      exact absurd (h p.1 h1) (not_le.mpr h3)

lemma search_naive_eq_naiveBest (s : AbkveInner) (q : List ℝ) (t : ℝ) :
    s.search_naive q t =
      (naiveBest (fun i => dot_list (normalize_vec q) (rowSlice s i)) t
        (s.data.length / s.dim)).map (fun p => (s.ids.getD p.1 0, p.2)) := by
  unfold AbkveInner.search_naive
  simp only []
  rw [naive_filter_fold]

/-- C4 counterexample: on a store with two identical rows (`dim = 1`,
rows `[1]`, `[1]`, ids `1` and `2`) and query `[1]` with threshold `0`,
`search` returns the earliest-inserted row (id 1) but `search_naive`
returns the latest (id 2), because Rust's `Iterator::max_by` keeps the
last maximal element.  The two functions therefore disagree on ties. -/
theorem search_naive_tie_cex :
    AbkveInner.search_naive ⟨1, [1, 1], [1, 2]⟩ [1] 0 = some (2, 1) ∧
    AbkveInner.search ⟨1, [1, 1], [1, 2]⟩ [1] 0 = some (1, 1) ∧
    AbkveInner.search_naive ⟨1, [1, 1], [1, 2]⟩ [1] 0 ≠
      AbkveInner.search ⟨1, [1, 1], [1, 2]⟩ [1] 0 := by
  have hl2 : l2_norm [(1:ℝ)] = 1 := by
    unfold l2_norm
    simp
  have hinv : inv_norm [(1:ℝ)] = 1 := by
    unfold inv_norm
    rw [hl2]
    norm_num
  have hnq : normalize_vec [(1:ℝ)] = [1] := by
    unfold normalize_vec
    rw [hinv]
    simp
  have hs0 : rowSlice ⟨1, [1, 1], [1, 2]⟩ 0 = [1] := rfl
  have hs1 : rowSlice ⟨1, [1, 1], [1, 2]⟩ 1 = [1] := rfl
  have hd : dot_list [(1:ℝ)] [1] = 1 := by simp [dot_list]
  have hG0 : dot_list (normalize_vec [(1:ℝ)]) (rowSlice ⟨1, [1, 1], [1, 2]⟩ 0) = 1 := by
    rw [hnq, hs0, hd]
  have hG1 : dot_list (normalize_vec [(1:ℝ)]) (rowSlice ⟨1, [1, 1], [1, 2]⟩ 1) = 1 := by
    rw [hnq, hs1, hd]
  have hF0 : dot_product_unrolled (normalize_vec [(1:ℝ)])
      (rowSlice ⟨1, [1, 1], [1, 2]⟩ 0) = 1 := by
    rw [dot_product_unrolled_eq, hG0]
  have hF1 : dot_product_unrolled (normalize_vec [(1:ℝ)])
      (rowSlice ⟨1, [1, 1], [1, 2]⟩ 1) = 1 := by
    rw [dot_product_unrolled_eq, hG1]
  have hnaive : AbkveInner.search_naive ⟨1, [1, 1], [1, 2]⟩ [1] 0 = some (2, 1) := by
    rw [search_naive_eq_naiveBest]
    rw [show (⟨1, [1, 1], [1, 2]⟩ : AbkveInner).data.length /
        (⟨1, [1, 1], [1, 2]⟩ : AbkveInner).dim = 1 + 1 from rfl]
    rw [naiveBest_succ]
    rw [show (1 : Nat) = 0 + 1 from rfl]
    rw [naiveBest_succ]
    simp only [hG0, hG1]
    rw [show naiveBest (fun i => dot_list (normalize_vec [(1:ℝ)])
        (rowSlice ⟨1, [1, 1], [1, 2]⟩ i)) 0 0 = none from rfl]
    rw [if_pos (by norm_num : (0:ℝ) < 1)]
    rw [if_pos (by norm_num : (0:ℝ) < 1)]
    rw [show maxByStep none ((0:ℕ), (1:ℝ)) = some (0, 1) from rfl]
    rw [show maxByStep (some ((0:ℕ), (1:ℝ))) ((1:ℕ), (1:ℝ)) =
        if (1:ℝ) < 1 then some (0, 1) else some (1, 1) from rfl]
    rw [if_neg (by norm_num : ¬((1:ℝ) < 1))]
    rfl
  have hsearch : AbkveInner.search ⟨1, [1, 1], [1, 2]⟩ [1] 0 = some (1, 1) := by
    unfold AbkveInner.search
    rw [if_neg (by decide :
      ¬((⟨1, [1, 1], [1, 2]⟩ : AbkveInner).ids.length = 0))]
    simp only []
    rw [show (⟨1, [1, 1], [1, 2]⟩ : AbkveInner).ids.length = 1 + 1 from rfl]
    rw [selLoop_succ]
    rw [show (1 : Nat) = 0 + 1 from rfl]
    rw [selLoop_succ]
    rw [show selLoop (fun i => dot_product_unrolled (normalize_vec [(1:ℝ)])
        (rowSlice ⟨1, [1, 1], [1, 2]⟩ i)) 0 0 = (0, none) from rfl]
    simp only [selStep, hF0, hF1]
    norm_num
  exact ⟨hnaive, hsearch, by rw [hnaive, hsearch]; simp⟩

/-- C4 (amended): `search_naive` matches `search` on the `None`/`Some`
outcome and on the returned score (exactly, in real arithmetic); the
returned id also matches whenever the maximal score is attained at a
unique row, but on ties `search_naive` returns the latest maximal row
while `search` returns the earliest. -/
theorem search_naive_matches_search (s : AbkveInner) (q : List ℝ) (t : ℝ)
    (hq : q.length = s.dim) (hinv : s.data.length = s.ids.length * s.dim)
    (hdim : 0 < s.dim) :
    (s.search_naive q t = none ↔ s.search q t = none) ∧
    (∀ i r j r', s.search q t = some (i, r) → s.search_naive q t = some (j, r') → r' = r) ∧
    ((∀ i j, i < s.ids.length → j < s.ids.length →
        (∀ k < s.ids.length, rowScore s q k ≤ rowScore s q i) →
        (∀ k < s.ids.length, rowScore s q k ≤ rowScore s q j) → i = j) →
      s.search_naive q t = s.search q t) := by
  have hm : s.data.length / s.dim = s.ids.length := by
    rw [hinv]
    exact Nat.mul_div_cancel _ hdim
  have hnaive : s.search_naive q t =
      (naiveBest (rowScore s q) t s.ids.length).map (fun p => (s.ids.getD p.1 0, p.2)) := by
    rw [search_naive_eq_naiveBest, hm]
    rfl
  refine ⟨?_, ?_, ?_⟩
  · rw [hnaive, search_none_iff, Option.map_eq_none', naiveBest_none_iff]
  · intro i r j r' hs hn
    obtain ⟨i', hlt, hid, hrr, htr, hmax, hfirst⟩ := search_some_spec s q t i r hs
    rw [hnaive, Option.map_eq_some'] at hn
    obtain ⟨p, hp, hpe⟩ := hn
    obtain ⟨hp1, hp2, hp3, hp4, hp5⟩ := (naiveBest_spec (rowScore s q) t _).2 p hp
    have hr' : r' = rowScore s q p.1 := by
      have h2 := congrArg Prod.snd hpe
      simp only [Prod.snd] at h2
      rw [← h2, hp2]
    have hle1 : r' ≤ r := by
      rw [hr']
      exact hmax p.1 hp1
    have hle2 : r ≤ r' := by
      rw [hr', hrr]
      exact hp4 i' hlt
    exact le_antisymm hle1 hle2
  · intro huniq
    by_cases hall : ∀ i < s.ids.length, rowScore s q i ≤ t
    · have h1 : s.search q t = none := (search_none_iff s q t).mpr hall
      have h2 : s.search_naive q t = none := by
        rw [hnaive, Option.map_eq_none', naiveBest_none_iff]
        exact hall
      rw [h1, h2]
    · cases hs : s.search q t with
      | none => exact absurd ((search_none_iff s q t).mp hs) hall
      | some pr =>
        have hs' : s.search q t = some (pr.1, pr.2) := by
          rw [hs]
        obtain ⟨i', hlt, hid, hrr, htr, hmax, hfirst⟩ :=
          search_some_spec s q t pr.1 pr.2 hs'
        cases hb : naiveBest (rowScore s q) t s.ids.length with
        | none => exact absurd ((naiveBest_none_iff _ _ _).mp hb) hall
        | some p =>
          obtain ⟨hp1, hp2, hp3, hp4, hp5⟩ := (naiveBest_spec _ _ _).2 p hb
          have heq : i' = p.1 :=
            huniq i' p.1 hlt hp1
              (fun k hk => by rw [← hrr]; exact hmax k hk) hp4
          rw [hnaive, hb, Option.map_some']
          have e1 : s.ids.getD p.1 0 = pr.1 := by
            rw [← heq, hid]
          have e2 : p.2 = pr.2 := by
            rw [hp2, ← heq, ← hrr]
          rw [e1, e2]

/-- Witness for the amended C4 at a one-row store. -/
theorem search_naive_matches_search_witness :
    (([(1:ℝ)] : List ℝ).length = (⟨1, [1], [5]⟩ : AbkveInner).dim) ∧
    ((⟨1, [1], [5]⟩ : AbkveInner).data.length =
      (⟨1, [1], [5]⟩ : AbkveInner).ids.length * (⟨1, [1], [5]⟩ : AbkveInner).dim) ∧
    0 < (⟨1, [1], [5]⟩ : AbkveInner).dim ∧
    ((AbkveInner.search_naive ⟨1, [1], [5]⟩ [1] 0 = none ↔
        AbkveInner.search ⟨1, [1], [5]⟩ [1] 0 = none) ∧
      (∀ i r j r', AbkveInner.search ⟨1, [1], [5]⟩ [1] 0 = some (i, r) →
        AbkveInner.search_naive ⟨1, [1], [5]⟩ [1] 0 = some (j, r') → r' = r) ∧
      ((∀ i j, i < (⟨1, [1], [5]⟩ : AbkveInner).ids.length →
          j < (⟨1, [1], [5]⟩ : AbkveInner).ids.length →
          (∀ k < (⟨1, [1], [5]⟩ : AbkveInner).ids.length,
            rowScore ⟨1, [1], [5]⟩ [1] k ≤ rowScore ⟨1, [1], [5]⟩ [1] i) →
          (∀ k < (⟨1, [1], [5]⟩ : AbkveInner).ids.length,
            rowScore ⟨1, [1], [5]⟩ [1] k ≤ rowScore ⟨1, [1], [5]⟩ [1] j) → i = j) →
        AbkveInner.search_naive ⟨1, [1], [5]⟩ [1] 0 =
          AbkveInner.search ⟨1, [1], [5]⟩ [1] 0)) :=
  ⟨rfl, rfl, by decide,
   search_naive_matches_search ⟨1, [1], [5]⟩ [1] 0 rfl rfl (by decide)⟩


lemma leToNat_u64ToLE (x : Nat) (hx : x < 2 ^ 64) : leToNat (u64ToLE x) = x := by
  unfold u64ToLE leToNat
  simp only [List.foldr_cons, List.foldr_nil]
  norm_num at hx ⊢
  omega

lemma leToNat_u32ToLE (x : Nat) (hx : x < 2 ^ 32) : leToNat (u32ToLE x) = x := by
  unfold u32ToLE leToNat
  simp only [List.foldr_cons, List.foldr_nil]
  norm_num at hx ⊢
  omega

lemma u64ToLE_length (x : Nat) : (u64ToLE x).length = 8 := rfl

lemma u32ToLE_length (x : Nat) : (u32ToLE x).length = 4 := rfl

lemma flatten_u32_length (l : List Nat) : ((l.map u32ToLE).flatten).length = 4 * l.length := by
  induction l with
  | nil => rfl
  | cons x l ih =>
    simp only [List.map_cons, List.flatten_cons, List.length_append, ih,
      u32ToLE_length, List.length_cons]
    ring

lemma flatten_u64_length (l : List Nat) : ((l.map u64ToLE).flatten).length = 8 * l.length := by
  induction l with
  | nil => rfl
  | cons x l ih =>
    simp only [List.map_cons, List.flatten_cons, List.length_append, ih,
      u64ToLE_length, List.length_cons]
    ring

lemma saveBytes_length (s : AbkveSnapshot) :
    (saveBytes s).length = 24 + 4 * s.data.length + 8 * s.ids.length := by
  unfold saveBytes
  simp only [List.length_append, u64ToLE_length, flatten_u32_length, flatten_u64_length]
  ring

lemma readBytes_of_le (n : Nat) (bs : List Nat) (h : n ≤ bs.length) :
    readBytes n bs = some (bs.take n, bs.drop n) := by
  unfold readBytes
  rw [if_pos h]

lemma readBytes_short (n : Nat) (bs : List Nat) (h : bs.length < n) :
    readBytes n bs = none := by
  unfold readBytes
  rw [if_neg (by omega)]

lemma readBytes_exact (A B : List Nat) (n : Nat) (h : A.length = n) :
    readBytes n (A ++ B) = some (A, B) := by
  rw [readBytes_of_le n (A ++ B) (by rw [List.length_append]; omega)]
  rw [List.take_left' h, List.drop_left' h]

lemma readU64_exact (A B : List Nat) (h : A.length = 8) :
    readU64 (A ++ B) = some (leToNat A, B) := by
  unfold readU64
  rw [readBytes_exact A B 8 h]
  rfl

lemma readU32_exact (A B : List Nat) (h : A.length = 4) :
    readU32 (A ++ B) = some (leToNat A, B) := by
  unfold readU32
  rw [readBytes_exact A B 4 h]
  rfl

lemma readU64_enc (x : Nat) (B : List Nat) (hx : x < 2 ^ 64) :
    readU64 (u64ToLE x ++ B) = some (x, B) := by
  rw [readU64_exact (u64ToLE x) B (u64ToLE_length x), leToNat_u64ToLE x hx]

lemma readU32_enc (x : Nat) (B : List Nat) (hx : x < 2 ^ 32) :
    readU32 (u32ToLE x ++ B) = some (x, B) := by
  rw [readU32_exact (u32ToLE x) B (u32ToLE_length x), leToNat_u32ToLE x hx]

lemma readU64_short (bs : List Nat) (h : bs.length < 8) : readU64 bs = none := by
  unfold readU64
  rw [readBytes_short _ _ h]
  rfl

lemma readSeq_u32_enc (l : List Nat) (B : List Nat) (hl : ∀ x ∈ l, x < 2 ^ 32) :
    readSeq readU32 l.length ((l.map u32ToLE).flatten ++ B) = some (l, B) := by
  induction l with
  | nil => rfl
  | cons x l ih =>
    have hx : x < 2 ^ 32 := hl x (List.mem_cons_self x l)
    have hrest : ∀ y ∈ l, y < 2 ^ 32 := fun y hy => hl y (List.mem_cons_of_mem x hy)
    rw [List.length_cons, List.map_cons, List.flatten_cons, List.append_assoc]
    show (readU32 (u32ToLE x ++ ((l.map u32ToLE).flatten ++ B))).bind _ = _
    rw [readU32_enc x _ hx, Option.some_bind]
    simp only []
    rw [ih hrest, Option.some_bind]

lemma readSeq_u64_enc (l : List Nat) (B : List Nat) (hl : ∀ x ∈ l, x < 2 ^ 64) :
    readSeq readU64 l.length ((l.map u64ToLE).flatten ++ B) = some (l, B) := by
  induction l with
  | nil => rfl
  | cons x l ih =>
    have hx : x < 2 ^ 64 := hl x (List.mem_cons_self x l)
    have hrest : ∀ y ∈ l, y < 2 ^ 64 := fun y hy => hl y (List.mem_cons_of_mem x hy)
    rw [List.length_cons, List.map_cons, List.flatten_cons, List.append_assoc]
    show (readU64 (u64ToLE x ++ ((l.map u64ToLE).flatten ++ B))).bind _ = _
    rw [readU64_enc x _ hx, Option.some_bind]
    simp only []
    rw [ih hrest, Option.some_bind]

/-- C2: decoding the byte image produced by `save` recovers a store whose
`dim`, `data` and `ids` are all identical to the original (byte-identical
floats: `data` holds the 32-bit patterns verbatim). -/
theorem save_load_roundtrip (s : AbkveSnapshot) (hdim : s.dim < 2 ^ 64)
    (hdl : s.data.length < 2 ^ 64) (hil : s.ids.length < 2 ^ 64)
    (hdata : ∀ x ∈ s.data, x < 2 ^ 32) (hids : ∀ x ∈ s.ids, x < 2 ^ 64) :
    loadBytes (saveBytes s) = some s := by
  unfold saveBytes loadBytes
  rw [readU64_enc _ _ hdim, Option.some_bind]
  simp only []
  rw [readU64_enc _ _ hdl, Option.some_bind]
  simp only []
  rw [readSeq_u32_enc _ _ hdata, Option.some_bind]
  simp only []
  rw [readU64_enc _ _ hil, Option.some_bind]
  simp only []
  rw [← List.append_nil ((s.ids.map u64ToLE).flatten), readSeq_u64_enc _ _ hids,
    Option.some_bind]

/-- Witness for C2 on a concrete snapshot. -/
theorem save_load_roundtrip_witness :
    (⟨2, [7, 3, 9], [5]⟩ : AbkveSnapshot).dim < 2 ^ 64 ∧
    (⟨2, [7, 3, 9], [5]⟩ : AbkveSnapshot).data.length < 2 ^ 64 ∧
    (⟨2, [7, 3, 9], [5]⟩ : AbkveSnapshot).ids.length < 2 ^ 64 ∧
    (∀ x ∈ (⟨2, [7, 3, 9], [5]⟩ : AbkveSnapshot).data, x < 2 ^ 32) ∧
    (∀ x ∈ (⟨2, [7, 3, 9], [5]⟩ : AbkveSnapshot).ids, x < 2 ^ 64) ∧
    loadBytes (saveBytes ⟨2, [7, 3, 9], [5]⟩) = some ⟨2, [7, 3, 9], [5]⟩ :=
  ⟨by decide, by decide, by decide, by decide, by decide,
   save_load_roundtrip ⟨2, [7, 3, 9], [5]⟩ (by decide) (by decide) (by decide)
     (by decide) (by decide)⟩

lemma take_append_ge (A B : List Nat) (k : Nat) (h : A.length ≤ k) :
    (A ++ B).take k = A ++ B.take (k - A.length) := by
  rw [List.take_append_eq_append_take, List.take_of_length_le h]

lemma readU32_of_le (bs : List Nat) (h : 4 ≤ bs.length) :
    readU32 bs = some (leToNat (bs.take 4), bs.drop 4) := by
  unfold readU32
  rw [readBytes_of_le _ _ h]
  rfl

lemma readU64_of_le (bs : List Nat) (h : 8 ≤ bs.length) :
    readU64 bs = some (leToNat (bs.take 8), bs.drop 8) := by
  unfold readU64
  rw [readBytes_of_le _ _ h]
  rfl

lemma readSeq_u32_short (n : Nat) (bs : List Nat) (h : bs.length < 4 * n) :
    readSeq readU32 n bs = none := by
  induction n generalizing bs with
  | zero => omega
  | succ n ih =>
    show (readU32 bs).bind _ = none
    by_cases h4 : bs.length < 4
    · rw [show readU32 bs = none from by
        unfold readU32; rw [readBytes_short _ _ h4]; rfl]
      rfl
    · push_neg at h4
      rw [readU32_of_le bs h4, Option.some_bind]
      simp only []
      rw [ih (bs.drop 4) (by rw [List.length_drop]; omega)]
      rfl

lemma readSeq_u64_short (n : Nat) (bs : List Nat) (h : bs.length < 8 * n) :
    readSeq readU64 n bs = none := by
  induction n generalizing bs with
  | zero => omega
  | succ n ih =>
    show (readU64 bs).bind _ = none
    by_cases h8 : bs.length < 8
    · rw [readU64_short bs h8]
      rfl
    · push_neg at h8
      rw [readU64_of_le bs h8, Option.some_bind]
      simp only []
      rw [ih (bs.drop 8) (by rw [List.length_drop]; omega)]
      rfl

lemma readSeq_u32_drop (n : Nat) (bs : List Nat) (h : 4 * n ≤ bs.length) :
    ∃ xs, readSeq readU32 n bs = some (xs, bs.drop (4 * n)) := by
  induction n generalizing bs with
  | zero => exact ⟨[], rfl⟩
  | succ n ih =>
    have h4 : 4 ≤ bs.length := by omega
    obtain ⟨xs, hxs⟩ := ih (bs.drop 4) (by rw [List.length_drop]; omega)
    refine ⟨leToNat (bs.take 4) :: xs, ?_⟩
    show (readU32 bs).bind _ = _
    rw [readU32_of_le bs h4, Option.some_bind]
    simp only []
    rw [hxs, Option.some_bind]
    rw [List.drop_drop]
    rw [show 4 + 4 * n = 4 * (n + 1) from by ring]

lemma loadBytes_short (bs : List Nat) (h : bs.length < 8) : loadBytes bs = none := by
  unfold loadBytes
  rw [readU64_short bs h]
  rfl

/-- C5 (amended, truncation half): decoding any strict prefix of a saved
image fails — `load` returns an error on truncated input and never
produces a store from it. -/
theorem load_truncated_none (s : AbkveSnapshot) (k : Nat)
    (hdl : s.data.length < 2 ^ 64) (hil : s.ids.length < 2 ^ 64)
    (hk : k < (saveBytes s).length) :
    loadBytes ((saveBytes s).take k) = none := by
  have htot := saveBytes_length s
  by_cases h1 : k < 8
  · apply loadBytes_short
    rw [List.length_take]
    omega
  · push_neg at h1
    have e1 : (saveBytes s).take k =
        u64ToLE s.dim ++ ((u64ToLE s.data.length ++
          ((s.data.map u32ToLE).flatten ++ (u64ToLE s.ids.length ++
            (s.ids.map u64ToLE).flatten))).take (k - 8)) := by
      unfold saveBytes
      rw [take_append_ge _ _ _ (by rw [u64ToLE_length]; omega), u64ToLE_length]
    rw [e1]
    unfold loadBytes
    rw [readU64_exact _ _ (u64ToLE_length _), Option.some_bind]
    simp only []
    by_cases h2 : k - 8 < 8
    · rw [readU64_short _ (by
        rw [List.length_take, List.length_append, List.length_append,
          List.length_append, u64ToLE_length, u64ToLE_length,
          flatten_u32_length, flatten_u64_length]
        omega)]
      rfl
    · push_neg at h2
      have e2 : (u64ToLE s.data.length ++
          ((s.data.map u32ToLE).flatten ++ (u64ToLE s.ids.length ++
            (s.ids.map u64ToLE).flatten))).take (k - 8) =
          u64ToLE s.data.length ++
            (((s.data.map u32ToLE).flatten ++ (u64ToLE s.ids.length ++
              (s.ids.map u64ToLE).flatten)).take (k - 16)) := by
        rw [take_append_ge _ _ _ (by rw [u64ToLE_length]; omega), u64ToLE_length,
          show k - 8 - 8 = k - 16 from by omega]
      rw [e2, readU64_enc _ _ hdl, Option.some_bind]
      simp only []
      by_cases h3 : k - 16 < 4 * s.data.length
      · rw [readSeq_u32_short _ _ (by
          rw [List.length_take, List.length_append, List.length_append,
            u64ToLE_length, flatten_u32_length, flatten_u64_length]
          omega)]
        rfl
      · push_neg at h3
        have e3 : ((s.data.map u32ToLE).flatten ++ (u64ToLE s.ids.length ++
            (s.ids.map u64ToLE).flatten)).take (k - 16) =
            (s.data.map u32ToLE).flatten ++
              ((u64ToLE s.ids.length ++ (s.ids.map u64ToLE).flatten).take
                (k - 16 - 4 * s.data.length)) := by
          rw [take_append_ge _ _ _ (by rw [flatten_u32_length]; omega),
            flatten_u32_length]
        rw [e3]
        obtain ⟨xs, hxs⟩ := readSeq_u32_drop s.data.length
          ((s.data.map u32ToLE).flatten ++ ((u64ToLE s.ids.length ++
            (s.ids.map u64ToLE).flatten).take (k - 16 - 4 * s.data.length)))
          (by rw [List.length_append, flatten_u32_length]; omega)
        rw [List.drop_left' (flatten_u32_length s.data)] at hxs
        rw [hxs, Option.some_bind]
        simp only []
        by_cases h4 : k - 16 - 4 * s.data.length < 8
        · rw [readU64_short _ (by
            rw [List.length_take, List.length_append, u64ToLE_length,
              flatten_u64_length]
            omega)]
          rfl
        · push_neg at h4
          have e4 : (u64ToLE s.ids.length ++ (s.ids.map u64ToLE).flatten).take
              (k - 16 - 4 * s.data.length) =
              u64ToLE s.ids.length ++ ((s.ids.map u64ToLE).flatten.take
                (k - 24 - 4 * s.data.length)) := by
            rw [take_append_ge _ _ _ (by rw [u64ToLE_length]; omega), u64ToLE_length,
              show k - 16 - 4 * s.data.length - 8 = k - 24 - 4 * s.data.length from by omega]
          rw [e4, readU64_enc _ _ hil, Option.some_bind]
          simp only []
          rw [readSeq_u64_short _ _ (by
            rw [List.length_take, flatten_u64_length]
            omega)]
          rfl

/-- Witness for the amended C5: a 10-byte prefix of a 36-byte image. -/
theorem load_truncated_none_witness :
    (⟨1, [3], [7]⟩ : AbkveSnapshot).data.length < 2 ^ 64 ∧
    (⟨1, [3], [7]⟩ : AbkveSnapshot).ids.length < 2 ^ 64 ∧
    10 < (saveBytes ⟨1, [3], [7]⟩).length ∧
    loadBytes ((saveBytes ⟨1, [3], [7]⟩).take 10) = none :=
  ⟨by decide, by decide, by decide,
   load_truncated_none ⟨1, [3], [7]⟩ 10 (by decide) (by decide) (by decide)⟩

/-- C5 counterexample: `load` performs no consistency validation.  The
image of the snapshot `dim = 2`, `data = [0,0,0]`, `ids = [5]` (where
`|data| = 3 ≠ 1 × 2 = |ids| × dim`) decodes successfully instead of
erroring, and an all-zero 24-byte image decodes to a store with `dim = 0`. -/
theorem load_inconsistent_cex :
    loadBytes (saveBytes ⟨2, [0, 0, 0], [5]⟩) = some ⟨2, [0, 0, 0], [5]⟩ ∧
    (⟨2, [0, 0, 0], [5]⟩ : AbkveSnapshot).data.length ≠
      (⟨2, [0, 0, 0], [5]⟩ : AbkveSnapshot).ids.length *
        (⟨2, [0, 0, 0], [5]⟩ : AbkveSnapshot).dim ∧
    loadBytes (List.replicate 24 0) = some ⟨0, [], []⟩ :=
  ⟨by decide, by decide, by decide⟩

lemma drop_append_ge (A B : List Nat) (k : Nat) (h : A.length ≤ k) :
    (A ++ B).drop k = B.drop (k - A.length) := by
  rw [List.drop_append_eq_append_drop, List.drop_eq_nil_of_le h, List.nil_append]

/-- C6 counterexample: the actual image of the snapshot `dim = 1`,
`data = [7]` (one f32 bit pattern), `ids = [9]` differs from the byte
string prescribed by the claimed layout (dim, ids_len, ids, data_len,
data): the code serializes the `data` array BEFORE the `ids` array. -/
theorem save_layout_order_cex :
    saveBytes ⟨1, [7], [9]⟩ ≠ specSnapshotLayout ⟨1, [7], [9]⟩ := by decide

/-- C6 (amended): the byte image produced by `save` is, in order: `dim`
as a little-endian u64; `data_len` as a little-endian u64; the `data`
values as 4-byte little-endian f32 patterns; `ids_len` as a little-endian
u64; and the `ids` as little-endian u64 values — each array
length-prefixed, with the data array encoded before the ids array
(the claimed ids-before-data order is refuted by `save_layout_order_cex`). -/
theorem save_layout_bytes (s : AbkveSnapshot) :
    (saveBytes s).take 8 = u64ToLE s.dim ∧
    ((saveBytes s).drop 8).take 8 = u64ToLE s.data.length ∧
    ((saveBytes s).drop 16).take (4 * s.data.length) = (s.data.map u32ToLE).flatten ∧
    ((saveBytes s).drop (16 + 4 * s.data.length)).take 8 = u64ToLE s.ids.length ∧
    (saveBytes s).drop (24 + 4 * s.data.length) = (s.ids.map u64ToLE).flatten ∧
    (saveBytes s).length = 24 + 4 * s.data.length + 8 * s.ids.length := by
  have hd8 : (saveBytes s).drop 8 =
      u64ToLE s.data.length ++ ((s.data.map u32ToLE).flatten ++
        (u64ToLE s.ids.length ++ (s.ids.map u64ToLE).flatten)) := by
    unfold saveBytes
    rw [drop_append_ge _ _ _ (by rw [u64ToLE_length]), u64ToLE_length]
    rfl
  have hd16 : (saveBytes s).drop 16 =
      (s.data.map u32ToLE).flatten ++
        (u64ToLE s.ids.length ++ (s.ids.map u64ToLE).flatten) := by
    unfold saveBytes
    rw [drop_append_ge _ _ _ (by rw [u64ToLE_length]; omega), u64ToLE_length,
      drop_append_ge _ _ _ (by rw [u64ToLE_length]), u64ToLE_length]
    rfl
  have hdData : (saveBytes s).drop (16 + 4 * s.data.length) =
      u64ToLE s.ids.length ++ (s.ids.map u64ToLE).flatten := by
    unfold saveBytes
    rw [drop_append_ge _ _ _ (by rw [u64ToLE_length]; omega), u64ToLE_length,
      drop_append_ge _ _ _ (by rw [u64ToLE_length]; omega), u64ToLE_length,
      drop_append_ge _ _ _ (by rw [flatten_u32_length]; omega), flatten_u32_length,
      show 16 + 4 * s.data.length - 8 - 8 - 4 * s.data.length = 0 from by omega,
      List.drop_zero]
  have hdIds : (saveBytes s).drop (24 + 4 * s.data.length) =
      (s.ids.map u64ToLE).flatten := by
    unfold saveBytes
    rw [drop_append_ge _ _ _ (by rw [u64ToLE_length]; omega), u64ToLE_length,
      drop_append_ge _ _ _ (by rw [u64ToLE_length]; omega), u64ToLE_length,
      drop_append_ge _ _ _ (by rw [flatten_u32_length]; omega), flatten_u32_length,
      drop_append_ge _ _ _ (by rw [u64ToLE_length]; omega), u64ToLE_length,
      show 24 + 4 * s.data.length - 8 - 8 - 4 * s.data.length - 8 = 0 from by omega,
      List.drop_zero]
  refine ⟨?_, ?_, ?_, ?_, hdIds, saveBytes_length s⟩
  · unfold saveBytes
    rw [List.take_left' (u64ToLE_length s.dim)]
  · rw [hd8, List.take_left' (u64ToLE_length s.data.length)]
  · rw [hd16, List.take_left' (flatten_u32_length s.data)]
  · rw [hdData, List.take_left' (u64ToLE_length s.ids.length)]
